import Mathlib

/-!
Shallow embedding of the ERC-2470 address miner core (Go sources) and proofs
of the specification claims about it.

Bytes are modelled as `Nat` (with explicit `< 256` bounds where they matter),
byte slices as `List Nat`, Go strings as `List Char` (all strings involved are
ASCII).  64-bit lanes are `Nat` reduced modulo `2 ^ 64` at every operation.
-/

namespace Miner

/-! ## Keccak-256 (the hash used by golang.org/x/crypto sha3.NewLegacyKeccak256) -/

/-- 64-bit word mask. -/
def w64 : Nat := 2 ^ 64

/-- Rotate a 64-bit lane left by r bits. -/
def rotl64 (n r : Nat) : Nat :=
  ((n <<< (r % 64)) ||| (n >>> (64 - r % 64))) % w64

/-- Keccak round constants (24 rounds). -/
def keccakRC : List Nat :=
  [0x0000000000000001, 0x0000000000008082, 0x800000000000808a, 0x8000000080008000,
   0x000000000000808b, 0x0000000080000001, 0x8000000080008081, 0x8000000000008009,
   0x000000000000008a, 0x0000000000000088, 0x0000000080008009, 0x000000008000000a,
   0x000000008000808b, 0x800000000000008b, 0x8000000000008089, 0x8000000000008003,
   0x8000000000008002, 0x8000000000000080, 0x000000000000800a, 0x800000008000000a,
   0x8000000080008081, 0x8000000000008080, 0x0000000080000001, 0x8000000080008008]

/-- Rotation offsets for the rho step, row y = 0 (lanes x + 5*y). -/
def rhoRow0 : List Nat := [0, 1, 62, 28, 27]

/-- Rho offsets, row y = 1. -/
def rhoRow1 : List Nat := [36, 44, 6, 55, 20]

/-- Rho offsets, row y = 2. -/
def rhoRow2 : List Nat := [3, 10, 43, 25, 39]

/-- Rho offsets, row y = 3. -/
def rhoRow3 : List Nat := [41, 45, 15, 21, 8]

/-- Rho offsets, row y = 4. -/
def rhoRow4 : List Nat := [18, 2, 61, 56, 14]

/-- Rotation offsets for the rho step, indexed by lane index x + 5*y. -/
def rhoOffsets : List Nat :=
  rhoRow0 ++ rhoRow1 ++ rhoRow2 ++ rhoRow3 ++ rhoRow4

/-- Theta step of Keccak-f[1600] on a 25-lane state. -/
def keccakTheta (s : List Nat) : List Nat :=
  let c := (List.range 5).map (fun x =>
    (s.getD x 0) ^^^ (s.getD (x + 5) 0) ^^^ (s.getD (x + 10) 0) ^^^
    (s.getD (x + 15) 0) ^^^ (s.getD (x + 20) 0))
  let d := (List.range 5).map (fun x =>
    (c.getD ((x + 4) % 5) 0) ^^^ rotl64 (c.getD ((x + 1) % 5) 0) 1)
  (List.range 25).map (fun i => (s.getD i 0) ^^^ (d.getD (i % 5) 0))

/-- Combined rho (rotation) and pi (lane permutation) steps.
Destination lane j = x' + 5*y' receives source lane x + 5*y with
x' = y, y' = (2x + 3y) % 5; solving for the source gives
x = (3*(j/5) + j%5) % 5, y = j % 5. -/
def keccakRhoPi (s : List Nat) : List Nat :=
  (List.range 25).map (fun j =>
    let x := (3 * (j / 5) + j % 5) % 5
    let y := j % 5
    let src := x + 5 * y
    rotl64 (s.getD src 0) (rhoOffsets.getD src 0))

/-- Chi step: s'[x,y] = s[x,y] xor ((not s[x+1,y]) and s[x+2,y]). -/
def keccakChi (s : List Nat) : List Nat :=
  (List.range 25).map (fun i =>
    let x := i % 5
    let row := i - x
    (s.getD i 0) ^^^ (((s.getD (row + (x + 1) % 5) 0) ^^^ (w64 - 1)) &&&
      (s.getD (row + (x + 2) % 5) 0)))

/-- One round of Keccak-f[1600]: theta, rho+pi, chi, iota. -/
def keccakRound (s : List Nat) (rc : Nat) : List Nat :=
  match keccakChi (keccakRhoPi (keccakTheta s)) with
  | [] => []
  | t0 :: rest => (t0 ^^^ rc) :: rest

/-- The full Keccak-f[1600] permutation (24 rounds). -/
def keccakF (s : List Nat) : List Nat :=
  keccakRC.foldl keccakRound s

/-- Load a little-endian 64-bit lane from the byte list at a byte offset. -/
def loadLane (bytes : List Nat) (off : Nat) : Nat :=
  (bytes.getD off 0) |||
  ((bytes.getD (off + 1) 0) <<< 8) |||
  ((bytes.getD (off + 2) 0) <<< 16) |||
  ((bytes.getD (off + 3) 0) <<< 24) |||
  ((bytes.getD (off + 4) 0) <<< 32) |||
  ((bytes.getD (off + 5) 0) <<< 40) |||
  ((bytes.getD (off + 6) 0) <<< 48) |||
  ((bytes.getD (off + 7) 0) <<< 56)

/-- Absorb one 136-byte (rate) block into the state and permute. -/
def absorbBlock (s : List Nat) (block : List Nat) : List Nat :=
  keccakF ((List.range 25).map (fun i =>
    if i < 17 then (s.getD i 0) ^^^ loadLane block (8 * i) else s.getD i 0))

/-- Legacy Keccak ("multi-rate") padding to a multiple of the 136-byte rate:
append 0x01, zero bytes, and a final 0x80 (a single 0x81 byte when one byte
of padding is needed). -/
def keccakPad (msg : List Nat) : List Nat :=
  let padLen := 136 - msg.length % 136
  msg ++ (if padLen = 1 then [0x81]
          else 0x01 :: (List.replicate (padLen - 2) 0 ++ [0x80]))

/-- Split a (padded) message into consecutive 136-byte blocks. -/
def rateBlocks (msg : List Nat) : List (List Nat) :=
  (List.range (msg.length / 136)).map (fun i => (msg.drop (136 * i)).take 136)

/-- Keccak-256 digest (32 bytes) of a byte list: the hash computed by
sha3.NewLegacyKeccak256 in the Go sources. -/
def keccak256 (msg : List Nat) : List Nat :=
  let s := (rateBlocks (keccakPad msg)).foldl absorbBlock (List.replicate 25 0)
  (List.range 32).map (fun i => ((s.getD (i / 8) 0) >>> (8 * (i % 8))) % 256)

theorem keccak256_length (msg : List Nat) : (keccak256 msg).length = 32 := by
  simp [keccak256]

end Miner

namespace Miner

/-! ## Hex encoding and decoding (Go encoding/hex and the 0x-stripping helpers) -/

/-- Lowercase hex digit for a nibble, as Go hex.EncodeToString emits. -/
def hexNib (n : Nat) : Char :=
  if n < 10 then Char.ofNat (48 + n) else Char.ofNat (87 + n)

/-- Lowercase hex encoding of a byte list (Go hex.EncodeToString). -/
def hexEncodeChars : List Nat → List Char
  | [] => []
  | b :: bs => hexNib (b / 16) :: hexNib (b % 16) :: hexEncodeChars bs

/-- Value of one hex digit, accepting both cases (Go encoding/hex digit set,
also the digit set big.Int.SetString accepts in base 16). -/
def hexDigitVal : Char → Option Nat := fun c =>
  if '0' ≤ c ∧ c ≤ '9' then some (c.toNat - 48)
  else if 'a' ≤ c ∧ c ≤ 'f' then some (c.toNat - 87)
  else if 'A' ≤ c ∧ c ≤ 'F' then some (c.toNat - 55)
  else none

/-- Hex decoding of a char list to bytes (Go hex.DecodeString: fails on odd
length or an invalid digit). -/
def hexDecode : List Char → Option (List Nat)
  | [] => some []
  | [_] => none
  | a :: b :: rest =>
    match hexDigitVal a, hexDigitVal b, hexDecode rest with
    | some hi, some lo, some bs => some ((hi * 16 + lo) :: bs)
    | _, _, _ => none

/-- ASCII lowercasing of one char (strings.ToLower on ASCII data). -/
def toLowerChar (c : Char) : Char :=
  if 'A' ≤ c ∧ c ≤ 'Z' then Char.ofNat (c.toNat + 32) else c

/-- ASCII uppercasing of one char (strings.ToUpper on ASCII data). -/
def toUpperChar (c : Char) : Char :=
  if 'a' ≤ c ∧ c ≤ 'z' then Char.ofNat (c.toNat - 32) else c

/-- Model of big.Int.SetString(s, 16) for unsigned hex strings: fails on the
empty string or on any invalid digit, otherwise accumulates the value. -/
def parseHexAcc : Nat → List Char → Option Nat
  | acc, [] => some acc
  | acc, c :: cs =>
    match hexDigitVal c with
    | some d => parseHexAcc (acc * 16 + d) cs
    | none => none

/-- big.Int.SetString(s, 16) (none models the nil big.Int on failure). -/
def setStringHex (s : List Char) : Option Nat :=
  if s.isEmpty then none else parseHexAcc 0 s

/-! ## internal/crypto/address.go -/

/-- The ERC-2470 singleton factory address constant (address.go). -/
def FactoryAddress : String := "0xce0042B868300000d44A59004Da54A005ffdcf9f"

/-- The pre-primed CREATE2 input head 0xff plus factory, 21 bytes, transcribed
from the create2Prefix literal in address.go. -/
def create2PrefixBytes : List Nat :=
  [0xff, 0xce, 0x00, 0x42, 0xb8, 0x68, 0x30, 0x00, 0x00, 0xd4, 0x4a, 0x59,
   0x00, 0x4d, 0xa5, 0x4a, 0x00, 0x5f, 0xfd, 0xcf, 0x9f]

/-- Strip a leading "0x"/"0X" when the string has at least 2 chars
(the idiom in HexToAddressBytes and MustAddressBytes). -/
def strip0xGE2 (s : List Char) : List Char :=
  if s.length ≥ 2 ∧ (s.take 2 = ['0', 'x'] ∨ s.take 2 = ['0', 'X']) then s.drop 2 else s

/-- MustAddressBytes from address.go: strip 0x, require 40 hex chars, decode. -/
def MustAddressBytes (addr : List Char) : Option (List Nat) :=
  let h := strip0xGE2 addr
  if h.length ≠ 40 then none else hexDecode h

/-- Create2AddressInto from address.go: keccak the 85-byte input and keep
digest bytes 12..31 as the 20-byte address. -/
def Create2AddressInto (inputBuf : List Nat) : List Nat :=
  ((keccak256 inputBuf).drop 12).take 20

/-- Nibble i of a hash byte list, exactly as toChecksumAddress indexes it:
hash[i/2] shifted by 4*(1-i%2), masked to 4 bits. -/
def hashNibble (hash : List Nat) (i : Nat) : Nat :=
  ((hash.getD (i / 2) 0) >>> (4 * (1 - i % 2))) &&& 0xF

/-- The character loop of toChecksumAddress: digits pass through, letters are
uppercased when the corresponding hash nibble is at least 8. -/
def checksumMap (hash : List Nat) : Nat → List Char → List Char
  | _, [] => []
  | i, c :: rest =>
    (if '0' ≤ c ∧ c ≤ '9' then c
     else if 8 ≤ hashNibble hash i then toUpperChar c else c) :: checksumMap hash (i + 1) rest

/-- The 40 checksummed hex chars of toChecksumAddress (without the 0x). -/
def checksumChars (addr20 : List Nat) : List Char :=
  let hexLower := hexEncodeChars addr20
  checksumMap (keccak256 (hexLower.map Char.toNat)) 0 hexLower

/-- toChecksumAddress from address.go; none models the panic on a length
other than 20 bytes. -/
def toChecksumAddress (addr20 : List Nat) : Option (List Char) :=
  if addr20.length ≠ 20 then none
  else some ('0' :: 'x' :: checksumChars addr20)

/-- Copy into the zero-initialised 32-byte salt array of
CalculateCreate2Address: Go copy takes min lengths, rest stays zero. -/
def saltTo32 (saltBytes : List Nat) : List Nat :=
  saltBytes.take 32 ++ List.replicate (32 - saltBytes.length) 0

/-- CalculateCreate2Address from address.go: keccak over the pre-primed
create2Prefix, the 32-byte salt array and the init-code hash, keep digest
bytes from 12 on, and checksum-encode. -/
def CalculateCreate2Address (initCodeHash saltBytes : List Nat) : Option (List Char) :=
  toChecksumAddress ((keccak256 (create2PrefixBytes ++ saltTo32 saltBytes ++ initCodeHash)).drop 12)

/-! ## pkg/types: WorkerConfig (the fields the matching and derivation use) -/

/-- WorkerConfig from pkg/types (byte-level fields of the developed variant
plus the string pattern fields of the earlier variant). -/
structure WorkerConfig where
  initcodeHash : List Nat := []
  targetStr : List Char := []
  prefixStr : List Char := []
  suffixStr : List Char := []
  targetBytes : List Nat := []
  prefixBytes : List Nat := []
  suffixBytes : List Nat := []
  areaCreate2Prefix : List Nat := []
  areaCreate2Suffix : List Nat := []
  deriving Repr, DecidableEq

/-! ## Byte-level matcher (matchesBytes, the developed worker) -/

/-- equalBytes from the worker: length check then element-wise comparison. -/
def equalBytes : List Nat → List Nat → Bool
  | [], [] => true
  | a :: as, b :: bs => a == b && equalBytes as bs
  | _, _ => false

/-- matchesBytes from the developed worker: reject non-20-byte input, an exact
20-byte target short-circuits, otherwise the configured (clamped) byte
pattern fields must all match. -/
def matchesBytes (cfg : WorkerConfig) (addr : List Nat) : Bool :=
  if addr.length ≠ 20 then false
  else if cfg.targetBytes.length = 20 then equalBytes addr cfg.targetBytes
  else if cfg.prefixBytes.length > 0 &&
      !(equalBytes (addr.take (min cfg.prefixBytes.length 20)) cfg.prefixBytes) then false
  else if cfg.suffixBytes.length > 0 &&
      !(equalBytes (addr.drop (20 - min cfg.suffixBytes.length 20)) cfg.suffixBytes) then false
  else true

/-! ## String-level matcher (matchesOptimized, pkg/worker/worker.go) -/

/-- Strip a leading "0x" when the string is longer than 2 chars (the
`len > 2 && s[:2] == "0x"` idiom of the pattern-cleaning code). -/
def strip0xGT2 (s : List Char) : List Char :=
  if s.length > 2 ∧ s.take 2 = ['0', 'x'] then s.drop 2 else s

/-- matchesOptimized from pkg/worker/worker.go: drops the first two chars of
the candidate address string and compares display strings with the cleaned
pattern strings (target returns immediately; a prefix comparison, when the
address is long enough, returns its result; otherwise the suffix check runs). -/
def matchesOptimized (cfg : WorkerConfig) (address : List Char) : Bool :=
  let addr := address.drop 2
  if cfg.targetStr ≠ [] then
    addr == strip0xGT2 cfg.targetStr
  else
    (if cfg.prefixStr ≠ [] ∧ addr.length ≥ (strip0xGT2 cfg.prefixStr).length then
      addr.take (strip0xGT2 cfg.prefixStr).length == strip0xGT2 cfg.prefixStr
    else
      if cfg.suffixStr ≠ [] ∧ addr.length ≥ (strip0xGT2 cfg.suffixStr).length then
        addr.drop (addr.length - (strip0xGT2 cfg.suffixStr).length) == strip0xGT2 cfg.suffixStr
      else false)

/-! ## Comparator (isBetterOptimized, pkg/miner/miner.go) -/

/-- isBetterOptimized from pkg/miner/miner.go: drop the "0x" of both address
strings, parse each as a base-16 big.Int and compare numerically; none models
the nil-pointer panic Go would hit in Cmp when a parse fails. -/
def isBetterOptimized (newAddr oldAddr : List Char) : Option Bool :=
  match setStringHex (newAddr.drop 2), setStringHex (oldAddr.drop 2) with
  | some n, some o => some (decide (n < o))
  | _, _ => none

/-- The acceptance test the miner worker runs under its lock:
bestResult == nil || isBetterOptimized(candidate, bestResult.Address). -/
def acceptsCandidate (candidate : List Char) : Option (List Char) → Option Bool
  | none => some true
  | some old => isBetterOptimized candidate old

/-! ## The developed worker (unnamed sources: PRNG, NewWorker, GenerateAddress) -/

/-- Worker state that evolves across attempts: the wyrand-like PRNG state. -/
structure Worker where
  config : WorkerConfig
  prngState : Nat
  deriving Repr, DecidableEq

/-- The PRNG seeding of NewWorker: the 8 crypto-random seed bytes assembled
little-endian when the read succeeds (none models a failed rand.Read, which
leaves the state zero), then a zero state is replaced by the constant 1. -/
def newWorkerPrngState (seedRead : Option (List Nat)) : Nat :=
  let s :=
    match seedRead with
    | some seed =>
      (seed.getD 0 0) ||| ((seed.getD 1 0) <<< 8) ||| ((seed.getD 2 0) <<< 16) |||
      ((seed.getD 3 0) <<< 24) ||| ((seed.getD 4 0) <<< 32) ||| ((seed.getD 5 0) <<< 40) |||
      ((seed.getD 6 0) <<< 48) ||| ((seed.getD 7 0) <<< 56)
    | none => 0
  if s = 0 then 1 else s

/-- NewWorker from the developed worker: always constructs a worker; a failed
seed read only affects the initial PRNG state. -/
def NewWorker (cfg : WorkerConfig) (seedRead : Option (List Nat)) : Worker :=
  { config := cfg, prngState := newWorkerPrngState seedRead }

/-- fastRandUint64: wyrand-like step, returns the new state and the output. -/
def fastRandUint64 (state : Nat) : Nat × Nat :=
  let s := (state + 0x60bee2b3d4d4a6c5) % w64
  (s, (s * (s >>> 32)) % w64)

/-- The 8 little-endian bytes of a 64-bit value, as fastSaltBytes stores them. -/
def u64Bytes (u : Nat) : List Nat :=
  [u % 256, (u >>> 8) % 256, (u >>> 16) % 256, (u >>> 24) % 256,
   (u >>> 32) % 256, (u >>> 40) % 256, (u >>> 48) % 256, (u >>> 56) % 256]

/-- fastSaltBytes: four PRNG outputs laid out as 32 salt bytes. -/
def fastSaltBytes (state : Nat) : Nat × List Nat :=
  let (s1, u1) := fastRandUint64 state
  let (s2, u2) := fastRandUint64 s1
  let (s3, u3) := fastRandUint64 s2
  let (s4, u4) := fastRandUint64 s3
  (s4, u64Bytes u1 ++ u64Bytes u2 ++ u64Bytes u3 ++ u64Bytes u4)

/-- Go copy semantics into a fixed-size zeroed region: take the source,
pad with zeroes up to the region size. -/
def padTake (n : Nat) (src : List Nat) : List Nat :=
  src.take n ++ List.replicate (n - src.length) 0

/-- Result record of one attempt of the developed worker (byte fields). -/
structure WorkerResult where
  saltBytes : List Nat
  addressBytes : List Nat
  attempts : Nat
  isMatch : Bool
  deriving Repr, DecidableEq

/-- GenerateAddress from the developed worker: fresh salt from the fast PRNG,
CREATE2 input assembled from the configured 21-byte head, the salt and the
configured 32-byte tail, address derived in place, shared counter bumped by
exactly one (64-bit add), then the byte-level match. Returns the result
together with the new PRNG state and the new shared counter. -/
def GenerateAddress (w : Worker) (attempts : Nat) : WorkerResult × Worker × Nat :=
  let (st, salt) := fastSaltBytes w.prngState
  let inputBuf := padTake 21 w.config.areaCreate2Prefix ++ padTake 32 salt ++
    padTake 32 w.config.areaCreate2Suffix
  let addr := Create2AddressInto inputBuf
  let attempts1 := (attempts + 1) % w64
  let isMatch := matchesBytes w.config addr
  ({ saltBytes := salt, addressBytes := addr, attempts := attempts1, isMatch := isMatch },
   { w with prngState := st }, attempts1)

/-- The worker state after one attempt: the PRNG advanced by fastSaltBytes. -/
def nextPrng (w : Worker) : Worker :=
  { w with prngState := (fastSaltBytes w.prngState).1 }

/-- Drive n deterministic attempts through GenerateAddress, threading the
worker's PRNG state and the shared attempt counter (the step equals
GenerateAddress's state output; see driveAttempts_step). -/
def driveAttempts (w : Worker) (attempts : Nat) (n : Nat) : Worker × Nat :=
  n.rec (motive := fun _ => Worker → Nat → Worker × Nat)
    (fun w0 a0 => (w0, a0))
    (fun _ ih w0 a0 => ih (nextPrng w0) ((a0 + 1) % w64)) w attempts

/-! ## pkg/miner/miner.go: the first (string-based) worker's counting, and the
second worker's best-result update step -/

/-- matchesOptimized as written in pkg/miner/miner.go (differs from the
pkg/worker version: a failed prefix comparison still falls through to the
suffix check). -/
def minerMatchesOptimized (cfg : WorkerConfig) (address : List Char) : Bool :=
  let addr := address.drop 2
  if cfg.targetStr ≠ [] then
    addr == strip0xGT2 cfg.targetStr
  else if cfg.prefixStr ≠ [] ∧ addr.length ≥ (strip0xGT2 cfg.prefixStr).length ∧
      addr.take (strip0xGT2 cfg.prefixStr).length = strip0xGT2 cfg.prefixStr then true
  else if cfg.suffixStr ≠ [] ∧ addr.length ≥ (strip0xGT2 cfg.suffixStr).length ∧
      addr.drop (addr.length - (strip0xGT2 cfg.suffixStr).length) = strip0xGT2 cfg.suffixStr then
    true
  else false

/-- One iteration of the inner attempt loop of the first miner worker
(miner.go lines 127-161), driven by the candidate address it derived: the
local counter is bumped, and the shared counter is touched only when a match
flushes the local count on exit.  Returns (shared, local, exited). -/
def minerWorkerAttempt (cfg : WorkerConfig) (address : List Char) (shared localAttempts : Nat) :
    Nat × Nat × Bool :=
  let local1 := (localAttempts + 1) % w64
  if minerMatchesOptimized cfg address then ((shared + local1) % w64, local1, true)
  else (shared, local1, false)

/-- The flush at the end of a batch in the first miner worker (miner.go lines
163-165): add the local count to the shared counter and reset it. -/
def minerWorkerBatchFlush (shared localAttempts : Nat) : Nat × Nat :=
  ((shared + localAttempts) % w64, 0)

/-- A recorded best result (pkg/types Result, string fields). -/
structure Result where
  salt : List Char
  address : List Char
  attempts : Nat
  deriving Repr, DecidableEq

/-- A worker result as the second miner worker consumes it (string fields). -/
structure WorkerResultS where
  salt : List Char
  address : List Char
  attempts : Nat
  isMatch : Bool
  deriving Repr, DecidableEq

/-- The result record the second miner worker would store for r. -/
def recordOf (r : WorkerResultS) : Result :=
  { salt := r.salt, address := r.address, attempts := r.attempts }

/-- The best-result update step the second miner worker runs per attempt
(miner.go lines 398-424): in zero-prefix mode every candidate is compared
and recorded if better; a matching candidate is compared and recorded if
better, closing the done channel, and stops the worker either way.  Returns
none when a comparison would hit the nil big.Int panic; otherwise the new
best and whether the worker returned. -/
def workerUpdateStep (zeroPreMode : Bool) (best : Option Result) (r : WorkerResultS) :
    Option (Option Result × Bool) :=
  let afterZero : Option (Option Result) :=
    if zeroPreMode then
      match best with
      | none => some (some (recordOf r))
      | some b =>
        match isBetterOptimized r.address b.address with
        | some true => some (some (recordOf r))
        | some false => some (some b)
        | none => none
    else some best
  match afterZero with
  | none => none
  | some best1 =>
    if r.isMatch then
      match best1 with
      | none => some (some (recordOf r), true)
      | some b =>
        match isBetterOptimized r.address b.address with
        | some true => some (some (recordOf r), true)
        | some false => some (some b, true)
        | none => none
    else some (best1, false)

/-! ## Definitions written from the specification text (for the refinement
claims, to be compared with the source-derived definitions above) -/

/-- The factory address bytes as the specification words give them: the hex
string constant decoded to 20 bytes. -/
def factoryAddressSpec : List Nat :=
  (hexDecode (FactoryAddress.data.drop 2)).getD []

/-- Modelled from the spec (claim C1 wording): concatenate 0xff, the factory
address, the salt and the init-code hash (85 bytes) and keep bytes 12..31 of
the keccak-256 digest. -/
def deriveSpec (salt initCodeHash : List Nat) : List Nat :=
  ((keccak256 (0xff :: (factoryAddressSpec ++ salt ++ initCodeHash))).drop 12).take 20

/-- Nibble i of a byte list the way the specification reads it: the high
nibble of byte i/2 for even i, the low nibble for odd i. -/
def specNibble (hash : List Nat) (i : Nat) : Nat :=
  if i % 2 = 0 then (hash.getD (i / 2) 0) / 16 else (hash.getD (i / 2) 0) % 16

/-- Modelled from the spec (claim C8 wording): each alphabetic hex digit a-f
is uppercased iff the corresponding hash nibble is at least 8; numeric digits
pass through. -/
def checksumSpecMap (hash : List Nat) : Nat → List Char → List Char
  | _, [] => []
  | i, c :: rest =>
    (if 'a' ≤ c ∧ c ≤ 'f' then (if 8 ≤ specNibble hash i then toUpperChar c else c) else c) ::
      checksumSpecMap hash (i + 1) rest

/-- Modelled from the spec: the full EIP-55-style encoding of claim C8. -/
def checksumEncodeSpec (addr20 : List Nat) : List Char :=
  let hexLower := hexEncodeChars addr20
  '0' :: 'x' :: checksumSpecMap (keccak256 (hexLower.map Char.toNat)) 0 hexLower

/-- The tagged pattern variant of the specification data model. -/
inductive Pattern where
  | exact (t : List Nat)
  | prefixPat (p : List Nat)
  | suffixPat (s : List Nat)
  deriving Repr, DecidableEq

/-- The worker configuration carrying exactly one byte pattern. -/
def configOfPattern : Pattern → WorkerConfig
  | .exact t => { targetBytes := t }
  | .prefixPat p => { prefixBytes := p }
  | .suffixPat s => { suffixBytes := s }

/-- Modelled from the spec (claim C2 wording): exact is byte equality over
all 20 bytes, a pattern of length clamped to 20 must equal the first (last)
min(len, 20) bytes. -/
def matchesSpec (addr : List Nat) : Pattern → Bool
  | .exact t => decide (addr = t)
  | .prefixPat p => decide (addr.take (min p.length 20) = p)
  | .suffixPat s => decide (addr.drop (20 - min s.length 20) = s)

/-- Big-endian value of a byte list. -/
def bytesToNat (bs : List Nat) : Nat :=
  bs.foldl (fun n b => n * 256 + b) 0

/-- The nibble sequence of a byte list (high nibble first). -/
def nibblesOf (bs : List Nat) : List Nat :=
  bs.flatMap (fun b => [b / 16, b % 16])

/-- Left-to-right lexicographic strict order on byte lists. -/
def lexLt : List Nat → List Nat → Bool
  | [], [] => false
  | [], _ :: _ => true
  | _ :: _, [] => false
  | a :: as, b :: bs => a < b || (a == b && lexLt as bs)

/-! ## Shared lemmas -/

theorem equalBytes_eq (a b : List Nat) : equalBytes a b = decide (a = b) := by
  induction a generalizing b with
  | nil => cases b <;> simp [equalBytes]
  | cons x xs ih =>
    cases b with
    | nil => simp [equalBytes]
    | cons y ys => by_cases hxy : x = y <;> simp [equalBytes, ih, hxy]

theorem hexDigitVal_hexNib : ∀ n < 16, hexDigitVal (hexNib n) = some n := by decide

theorem hexDigitVal_upper_hexNib : ∀ n < 16, hexDigitVal (toUpperChar (hexNib n)) = some n := by
  decide

theorem toLower_upper_hexNib : ∀ n < 16, toLowerChar (toUpperChar (hexNib n)) = hexNib n := by
  decide

theorem toLower_hexNib : ∀ n < 16, toLowerChar (hexNib n) = hexNib n := by decide

theorem hexNib_digit_iff : ∀ n < 16,
    (('0' ≤ hexNib n ∧ hexNib n ≤ '9') ↔ n < 10) := by decide

theorem hexNib_alpha_iff : ∀ n < 16,
    (('a' ≤ hexNib n ∧ hexNib n ≤ 'f') ↔ 10 ≤ n) := by decide

/-- Every char hexEncodeChars emits is a hex nibble char (bytes below 256). -/
theorem hexEncodeChars_nibs (bs : List Nat) (hb : ∀ b ∈ bs, b < 256) :
    ∀ c ∈ hexEncodeChars bs, ∃ n, n < 16 ∧ c = hexNib n := by
  induction bs with
  | nil => simp [hexEncodeChars]
  | cons b rest ih =>
    have hblt : b < 256 := hb b (by simp)
    have hrest : ∀ x ∈ rest, x < 256 := fun x hx => hb x (by simp [hx])
    intro c hc
    simp only [hexEncodeChars, List.mem_cons] at hc
    rcases hc with h | h | h
    · exact ⟨b / 16, by omega, h⟩
    · exact ⟨b % 16, by omega, h⟩
    · exact ih hrest c h

theorem keccak256_bytes_lt (msg : List Nat) : ∀ b ∈ keccak256 msg, b < 256 := by
  intro b hb
  simp only [keccak256, List.mem_map] at hb
  obtain ⟨i, _, hi⟩ := hb
  omega

set_option maxRecDepth 4000 in
/-- For bytes below 256 the code's shift-and-mask nibble extraction agrees
with the arithmetic reading of the specification. -/
theorem nibble_arith : ∀ h < 256, (h >>> 4) &&& 15 = h / 16 ∧ h &&& 15 = h % 16 := by decide

/-- An element read with default 0 from a list of bytes is below 256. -/
theorem getD_lt_256 (l : List Nat) (n : Nat) (h : ∀ b ∈ l, b < 256) : l.getD n 0 < 256 := by
  rcases Nat.lt_or_ge n l.length with hn | hn
  · rw [List.getD_eq_getElem _ _ hn]
    exact h _ (List.getElem_mem hn)
  · rw [List.getD_eq_default _ _ hn]; omega

theorem hashNibble_eq_specNibble (hash : List Nat) (hb : ∀ b ∈ hash, b < 256) (i : Nat) :
    hashNibble hash i = specNibble hash i := by
  have hlt : hash.getD (i / 2) 0 < 256 := getD_lt_256 hash (i / 2) hb
  obtain ⟨h1, h2⟩ := nibble_arith _ hlt
  unfold hashNibble specNibble
  rcases Nat.even_or_odd i with he | ho
  · have h0 : i % 2 = 0 := Nat.even_iff.mp he
    rw [h0]
    norm_num
    simpa using h1
  · have h0 : i % 2 = 1 := Nat.odd_iff.mp ho
    rw [h0]
    norm_num
    simpa using h2

end Miner


namespace Miner

/-- checksumMap sends every hex-nibble char to a char with the same hex digit
value (digits pass through, letters keep their value when uppercased). -/
theorem digitVals_checksumMap (hash : List Nat) (cs : List Char)
    (hcs : ∀ c ∈ cs, ∃ n, n < 16 ∧ c = hexNib n) :
    ∀ i, (checksumMap hash i cs).map hexDigitVal = cs.map hexDigitVal := by
  induction cs with
  | nil => intro i; simp [checksumMap]
  | cons c rest ih =>
    intro i
    obtain ⟨n, hn, hc⟩ := hcs c (by simp)
    have hrest : ∀ c ∈ rest, ∃ n, n < 16 ∧ c = hexNib n := fun c hc => hcs c (by simp [hc])
    simp only [checksumMap, List.map_cons, ih hrest (i + 1), List.cons.injEq, and_true]
    subst hc
    by_cases hd : '0' ≤ hexNib n ∧ hexNib n ≤ '9'
    · simp [hd]
    · by_cases hh : 8 ≤ hashNibble hash i
      · simp [hd, hh, hexDigitVal_upper_hexNib n hn, hexDigitVal_hexNib n hn]
      · simp [hd, hh]

/-- Lowercasing undoes the case changes checksumMap makes on hex-nibble chars. -/
theorem toLower_checksumMap (hash : List Nat) (cs : List Char)
    (hcs : ∀ c ∈ cs, ∃ n, n < 16 ∧ c = hexNib n) :
    ∀ i, (checksumMap hash i cs).map toLowerChar = cs := by
  induction cs with
  | nil => intro i; simp [checksumMap]
  | cons c rest ih =>
    intro i
    obtain ⟨n, hn, hc⟩ := hcs c (by simp)
    have hrest : ∀ c ∈ rest, ∃ n, n < 16 ∧ c = hexNib n := fun c hc => hcs c (by simp [hc])
    simp only [checksumMap, List.map_cons, ih hrest (i + 1), List.cons.injEq, and_true]
    subst hc
    by_cases hd : '0' ≤ hexNib n ∧ hexNib n ≤ '9'
    · simp [hd, toLower_hexNib n hn]
    · by_cases hh : 8 ≤ hashNibble hash i
      · simp [hd, hh, toLower_upper_hexNib n hn]
      · simp [hd, hh, toLower_hexNib n hn]

/-- Decoding inverts encoding on genuine byte lists. -/
theorem hexDecode_hexEncode (bs : List Nat) (hb : ∀ b ∈ bs, b < 256) :
    hexDecode (hexEncodeChars bs) = some bs := by
  induction bs with
  | nil => simp [hexEncodeChars, hexDecode]
  | cons b rest ih =>
    have hblt : b < 256 := hb b (by simp)
    have hrest : ∀ x ∈ rest, x < 256 := fun x hx => hb x (by simp [hx])
    have hhi : hexDigitVal (hexNib (b / 16)) = some (b / 16) :=
      hexDigitVal_hexNib _ (by omega)
    have hlo : hexDigitVal (hexNib (b % 16)) = some (b % 16) :=
      hexDigitVal_hexNib _ (by omega)
    simp [hexEncodeChars, hexDecode, hhi, hlo, ih hrest]
    omega

/-- The hex digit values of an encoded byte list are its nibbles. -/
theorem digitVals_hexEncode (bs : List Nat) (hb : ∀ b ∈ bs, b < 256) :
    (hexEncodeChars bs).map hexDigitVal = (nibblesOf bs).map some := by
  induction bs with
  | nil => simp [hexEncodeChars, nibblesOf]
  | cons b rest ih =>
    have hblt : b < 256 := hb b (by simp)
    have hrest : ∀ x ∈ rest, x < 256 := fun x hx => hb x (by simp [hx])
    have ih2 := ih hrest
    simp only [nibblesOf] at ih2 ⊢
    simp [hexEncodeChars, hexDigitVal_hexNib (b / 16) (by omega),
      hexDigitVal_hexNib (b % 16) (by omega), ih2]

/-- parseHexAcc is determined by the digit values of the chars. -/
theorem parseHexAcc_of_digitVals (s : List Char) (ds : List Nat)
    (h : s.map hexDigitVal = ds.map some) :
    ∀ acc, parseHexAcc acc s = some (ds.foldl (fun n d => n * 16 + d) acc) := by
  induction s generalizing ds with
  | nil =>
    intro acc
    cases ds with
    | nil => simp [parseHexAcc]
    | cons d ds => simp at h
  | cons c rest ih =>
    intro acc
    cases ds with
    | nil => simp at h
    | cons d ds =>
      simp only [List.map_cons, List.cons.injEq] at h
      simp [parseHexAcc, h.1, ih ds h.2]

/-- Folding nibbles base 16 is folding bytes base 256. -/
theorem nibbles_foldl (bs : List Nat) (hb : ∀ b ∈ bs, b < 256) :
    ∀ acc, (nibblesOf bs).foldl (fun n d => n * 16 + d) acc =
      bs.foldl (fun n b => n * 256 + b) acc := by
  induction bs with
  | nil => intro acc; simp [nibblesOf]
  | cons b rest ih =>
    intro acc
    have hblt : b < 256 := hb b (by simp)
    have hrest : ∀ x ∈ rest, x < 256 := fun x hx => hb x (by simp [hx])
    have hstep : (acc * 16 + b / 16) * 16 + b % 16 = acc * 256 + b := by omega
    simpa [nibblesOf, hstep] using ih hrest (acc * 256 + b)

end Miner

namespace Miner

theorem foldl_base256 (bs : List Nat) :
    ∀ acc, bs.foldl (fun n b => n * 256 + b) acc = acc * 256 ^ bs.length + bytesToNat bs := by
  induction bs with
  | nil => intro acc; simp [bytesToNat]
  | cons b rest ih =>
    intro acc
    have h1 := ih (acc * 256 + b)
    have h2 := ih b
    have hbtn : bytesToNat (b :: rest) = b * 256 ^ rest.length + bytesToNat rest := by
      simp only [bytesToNat, List.foldl_cons]
      simpa using h2
    simp only [List.foldl_cons, h1, hbtn, List.length_cons]
    ring

theorem bytesToNat_lt (bs : List Nat) (hb : ∀ b ∈ bs, b < 256) :
    bytesToNat bs < 256 ^ bs.length := by
  induction bs with
  | nil => simp [bytesToNat]
  | cons b rest ih =>
    have hblt : b < 256 := hb b (by simp)
    have hrest : ∀ x ∈ rest, x < 256 := fun x hx => hb x (by simp [hx])
    have hbtn : bytesToNat (b :: rest) = b * 256 ^ rest.length + bytesToNat rest := by
      simp only [bytesToNat, List.foldl_cons]
      simpa using foldl_base256 rest b
    have htail := ih hrest
    have : (b + 1) * 256 ^ rest.length ≤ 256 ^ (rest.length + 1) := by
      have : b + 1 ≤ 256 := by omega
      calc (b + 1) * 256 ^ rest.length ≤ 256 * 256 ^ rest.length :=
            Nat.mul_le_mul_right _ this
        _ = 256 ^ (rest.length + 1) := by ring
    simp only [hbtn, List.length_cons]
    nlinarith

theorem bytesToNat_lt_iff_lexLt (a : List Nat) :
    ∀ b : List Nat, a.length = b.length → (∀ x ∈ a, x < 256) → (∀ x ∈ b, x < 256) →
      (bytesToNat a < bytesToNat b ↔ lexLt a b = true) := by
  induction a with
  | nil =>
    intro b hlen _ _
    cases b with
    | nil => simp [bytesToNat, lexLt]
    | cons y ys => simp at hlen
  | cons x xs ih =>
    intro b hlen ha hb
    cases b with
    | nil => simp at hlen
    | cons y ys =>
      have hlen2 : xs.length = ys.length := by simpa using hlen
      have hx : x < 256 := ha x (by simp)
      have hy : y < 256 := hb y (by simp)
      have hxs : ∀ v ∈ xs, v < 256 := fun v hv => ha v (by simp [hv])
      have hys : ∀ v ∈ ys, v < 256 := fun v hv => hb v (by simp [hv])
      have hbtnx : bytesToNat (x :: xs) = x * 256 ^ xs.length + bytesToNat xs := by
        simp only [bytesToNat, List.foldl_cons]
        simpa using foldl_base256 xs x
      have hbtny : bytesToNat (y :: ys) = y * 256 ^ ys.length + bytesToNat ys := by
        simp only [bytesToNat, List.foldl_cons]
        simpa using foldl_base256 ys y
      have htx : bytesToNat xs < 256 ^ xs.length := bytesToNat_lt xs hxs
      have hty : bytesToNat ys < 256 ^ ys.length := bytesToNat_lt ys hys
      rw [← hlen2] at hty
      rw [hbtnx, hbtny, ← hlen2]
      rcases Nat.lt_trichotomy x y with hxy | hxy | hxy
      · have hlt : x * 256 ^ xs.length + bytesToNat xs < y * 256 ^ xs.length + bytesToNat ys := by
          have : (x + 1) * 256 ^ xs.length ≤ y * 256 ^ xs.length :=
            Nat.mul_le_mul_right _ (by omega)
          nlinarith
        simp [lexLt, hxy, hlt]
      · subst hxy
        have : (x * 256 ^ xs.length + bytesToNat xs < x * 256 ^ xs.length + bytesToNat ys) ↔
            bytesToNat xs < bytesToNat ys := by omega
        rw [this, ih ys hlen2 hxs hys]
        simp [lexLt, Nat.lt_irrefl]
      · have hge : ¬ (x * 256 ^ xs.length + bytesToNat xs < y * 256 ^ xs.length + bytesToNat ys) := by
          have : (y + 1) * 256 ^ xs.length ≤ x * 256 ^ xs.length :=
            Nat.mul_le_mul_right _ (by omega)
          nlinarith
        have hne : ¬ (x = y) := by omega
        have hnlt : ¬ (x < y) := by omega
        simp [lexLt, hnlt, hne, hge]

theorem bytesToNat_inj (a : List Nat) :
    ∀ b : List Nat, a.length = b.length → (∀ x ∈ a, x < 256) → (∀ x ∈ b, x < 256) →
      bytesToNat a = bytesToNat b → a = b := by
  induction a with
  | nil =>
    intro b hlen _ _ _
    cases b with
    | nil => rfl
    | cons y ys => simp at hlen
  | cons x xs ih =>
    intro b hlen ha hb heq
    cases b with
    | nil => simp at hlen
    | cons y ys =>
      have hlen2 : xs.length = ys.length := by simpa using hlen
      have hx : x < 256 := ha x (by simp)
      have hy : y < 256 := hb y (by simp)
      have hxs : ∀ v ∈ xs, v < 256 := fun v hv => ha v (by simp [hv])
      have hys : ∀ v ∈ ys, v < 256 := fun v hv => hb v (by simp [hv])
      have hbtnx : bytesToNat (x :: xs) = x * 256 ^ xs.length + bytesToNat xs := by
        simp only [bytesToNat, List.foldl_cons]
        simpa using foldl_base256 xs x
      have hbtny : bytesToNat (y :: ys) = y * 256 ^ ys.length + bytesToNat ys := by
        simp only [bytesToNat, List.foldl_cons]
        simpa using foldl_base256 ys y
      have htx : bytesToNat xs < 256 ^ xs.length := bytesToNat_lt xs hxs
      have hty : bytesToNat ys < 256 ^ ys.length := bytesToNat_lt ys hys
      rw [← hlen2] at hty
      rw [hbtnx, hbtny, ← hlen2] at heq
      have hn1 : ¬ x < y := by
        intro hlt
        have : (x + 1) * 256 ^ xs.length ≤ y * 256 ^ xs.length :=
          Nat.mul_le_mul_right _ (by omega)
        nlinarith
      have hn2 : ¬ y < x := by
        intro hlt
        have : (y + 1) * 256 ^ xs.length ≤ x * 256 ^ xs.length :=
          Nat.mul_le_mul_right _ (by omega)
        nlinarith
      have hxy : x = y := by omega
      subst hxy
      have : bytesToNat xs = bytesToNat ys := by omega
      rw [ih ys hlen2 hxs hys this]

end Miner

namespace Miner

/-- Claim C10: the byte-level matcher accepts every 20-byte address when no
pattern is configured (all three byte pattern fields empty), and rejects any
input whose length is not exactly 20 bytes regardless of the configured
pattern. -/
theorem claim_C10 (cfg : WorkerConfig) (addr : List Nat) :
    (addr.length ≠ 20 → matchesBytes cfg addr = false) ∧
    (addr.length = 20 → cfg.targetBytes = [] → cfg.prefixBytes = [] →
      cfg.suffixBytes = [] → matchesBytes cfg addr = true) := by
  constructor
  · intro h
    simp [matchesBytes, h]
  · intro h20 ht hp hs
    simp [matchesBytes, h20, ht, hp, hs]

/-- Claim C10 witness: a concrete 3-byte input is rejected, and a concrete
20-byte input with no pattern configured is accepted. -/
theorem claim_C10_witness :
    matchesBytes {} [1, 2, 3] = false ∧ matchesBytes {} (List.replicate 20 7) = true :=
  ⟨(claim_C10 {} [1, 2, 3]).1 (by decide),
   (claim_C10 {} (List.replicate 20 7)).2 (by decide) rfl rfl rfl⟩

/-- Claim C2: on a 20-byte address the byte-level matcher decides exactly the
specified pattern semantics: an exact 20-byte target is whole-address byte
equality, a prefix (suffix) pattern is byte equality of the first (last)
min(len, 20) bytes. -/
theorem claim_C2 (addr : List Nat) (h20 : addr.length = 20) (pat : Pattern)
    (hwf : ∀ t, pat = .exact t → t.length = 20) :
    matchesBytes (configOfPattern pat) addr = matchesSpec addr pat := by
  cases pat with
  | exact t =>
    have ht : t.length = 20 := hwf t rfl
    simp [matchesBytes, configOfPattern, matchesSpec, equalBytes_eq, h20, ht]
  | prefixPat p =>
    by_cases hp : p = []
    · subst hp
      simp [matchesBytes, configOfPattern, matchesSpec, h20]
    · have hplen : p.length > 0 := List.length_pos.mpr hp
      by_cases heq : addr.take (min p.length 20) = p
      · simp [matchesBytes, configOfPattern, matchesSpec, h20, hplen, equalBytes_eq, heq]
      · simp [matchesBytes, configOfPattern, matchesSpec, h20, hplen, equalBytes_eq, heq]
  | suffixPat s =>
    by_cases hs : s = []
    · subst hs
      simp [matchesBytes, configOfPattern, matchesSpec, h20]
    · have hslen : s.length > 0 := List.length_pos.mpr hs
      by_cases heq : addr.drop (20 - min s.length 20) = s
      · simp [matchesBytes, configOfPattern, matchesSpec, h20, hslen, equalBytes_eq, heq]
      · simp [matchesBytes, configOfPattern, matchesSpec, h20, hslen, equalBytes_eq, heq]

/-- Claim C2 witness: a concrete 20-byte address against a 2-byte prefix
pattern it satisfies. -/
theorem claim_C2_witness :
    matchesBytes (configOfPattern (.prefixPat [0x12, 0x34]))
      [0x12, 0x34, 0x56, 0x78, 0x90, 0xab, 0xcd, 0xef, 0x12, 0x34,
       0x56, 0x78, 0x90, 0xab, 0xcd, 0xef, 0x12, 0x34, 0x56, 0x78] =
    matchesSpec
      [0x12, 0x34, 0x56, 0x78, 0x90, 0xab, 0xcd, 0xef, 0x12, 0x34,
       0x56, 0x78, 0x90, 0xab, 0xcd, 0xef, 0x12, 0x34, 0x56, 0x78]
      (.prefixPat [0x12, 0x34]) :=
  claim_C2 _ (by decide) _ (by intro t ht; cases ht)

end Miner

namespace Miner

/-- Claim C6 counterexample: with the seed source unavailable (the modelled
rand.Read failure), NewWorker still constructs a running worker, and its PRNG
state is the fixed constant 1 - the worker does not fail to start. -/
theorem claim_C6_counterexample :
    NewWorker {} none = { config := {}, prngState := 1 } := by
  rfl

/-- Claim C6 amended: NewWorker never fails; a failed seed read (or an
all-zero seed) falls back to the fixed PRNG state 1, and the PRNG state is
never zero. -/
theorem claim_C6_amended (cfg : WorkerConfig) (seedRead : Option (List Nat)) :
    (NewWorker cfg seedRead).prngState ≠ 0 ∧
    (seedRead = none → (NewWorker cfg seedRead).prngState = 1) := by
  constructor
  · unfold NewWorker newWorkerPrngState
    dsimp only []
    split <;> simp_all
  · rintro rfl
    rfl

/-- Claim C6 witness: the amended statement at the failed-seed input. -/
theorem claim_C6_witness :
    (NewWorker {} none).prngState ≠ 0 ∧ (NewWorker {} none).prngState = 1 :=
  ⟨(claim_C6_amended {} none).1, (claim_C6_amended {} none).2 rfl⟩

/-- Claim C4 failing input: the string-based matcher of pkg/worker/worker.go
compares display strings, so changing only the letter case of the configured
target flips the outcome on the same candidate address string - matching is
not case-insensitive there. -/
theorem claim_C4_failing :
    matchesOptimized { targetStr := "1234567890abcdef1234567890abcdef12345678".data }
      "0x1234567890abcdef1234567890abcdef12345678".data = true ∧
    matchesOptimized { targetStr := "1234567890ABCDEF1234567890ABCDEF12345678".data }
      "0x1234567890abcdef1234567890abcdef12345678".data = false := by
  constructor <;> rfl

end Miner

namespace Miner

/-- The state-and-counter output of one generated attempt is exactly the
step driveAttempts takes: the advanced PRNG and the 64-bit incremented
counter. -/
theorem driveAttempts_step (w : Worker) (c : Nat) :
    (GenerateAddress w c).2 = (nextPrng w, (c + 1) % w64) := rfl

attribute [irreducible] nextPrng

/-- Unfolding one driven attempt. -/
theorem driveAttempts_succ (w : Worker) (c n : Nat) :
    driveAttempts w c (n + 1) = driveAttempts (nextPrng w) ((c + 1) % w64) n := rfl

/-- The shared counter driven through GenerateAddress advances by exactly one
per attempt (no wrap while the count stays below 2^64). -/
theorem driveAttempts_counter :
    ∀ (n : Nat) (w : Worker) (c : Nat), c + n < w64 → (driveAttempts w c n).2 = c + n := by
  intro n
  induction n with
  | zero => intro w c _; rfl
  | succ n ih =>
    intro w c hc
    rw [driveAttempts_succ, Nat.mod_eq_of_lt (show c + 1 < w64 by omega)]
    have hrec := ih (nextPrng w) (c + 1) (by omega)
    rw [hrec]
    omega

/-- Claim C5 counterexample: one candidate evaluated by the legacy miner.go
worker loop (no pattern configured, so no match) leaves the shared counter at
0 - the increment went to the worker-local counter, so the shared counter is
not incremented by exactly 1 per candidate. -/
theorem claim_C5_counterexample :
    minerWorkerAttempt {} ("0x0000000000000000000000000000000000000000".data) 0 0 =
      (0, 1, false) := by
  rfl

/-- Claim C5 amended: the developed worker's GenerateAddress bumps the shared
counter by exactly one per candidate, so n driven attempts read exactly n
(n below 2^64); the legacy miner.go worker instead leaves the shared counter
untouched on a non-matching candidate (counting locally) and adds the local
count only at a batch flush. -/
theorem claim_C5_amended (cfg : WorkerConfig) (seedRead : Option (List Nat)) (n : Nat)
    (hn : n < w64) :
    (driveAttempts (NewWorker cfg seedRead) 0 n).2 = n ∧
    (∀ addrStr shared localA, minerMatchesOptimized cfg addrStr = false →
      minerWorkerAttempt cfg addrStr shared localA = (shared, (localA + 1) % w64, false)) ∧
    (∀ shared localA, shared + localA < w64 →
      (minerWorkerBatchFlush shared localA).1 = shared + localA) := by
  refine ⟨by simpa using driveAttempts_counter n (NewWorker cfg seedRead) 0 (by omega), ?_, ?_⟩
  · intro addrStr shared localA hne
    unfold minerWorkerAttempt
    rw [hne]
    rfl
  · intro shared localA hlt
    unfold minerWorkerBatchFlush
    simp [Nat.mod_eq_of_lt hlt]

/-- Claim C5 witness: three driven attempts read exactly three, and the
legacy per-candidate step at a concrete non-matching input keeps the shared
counter untouched. -/
theorem claim_C5_witness :
    (driveAttempts (NewWorker {} none) 0 3).2 = 3 ∧
    (∀ addrStr shared localA, minerMatchesOptimized {} addrStr = false →
      minerWorkerAttempt {} addrStr shared localA = (shared, (localA + 1) % w64, false)) ∧
    (∀ shared localA, shared + localA < w64 →
      (minerWorkerBatchFlush shared localA).1 = shared + localA) :=
  claim_C5_amended {} none 3 (by norm_num [w64])



end Miner

namespace Miner

set_option maxRecDepth 4000 in
/-- The pre-primed 21-byte constant of address.go is 0xff followed by the
decoded bytes of the specified factory address string. -/
theorem create2PrefixBytes_eq : create2PrefixBytes = 0xff :: factoryAddressSpec := by
  decide

theorem saltTo32_eq (salt : List Nat) (h : salt.length = 32) : saltTo32 salt = salt := by
  simp [saltTo32, h, List.take_of_length_le (by omega : salt.length ≤ 32)]

theorem drop12_take20 (l : List Nat) (h : l.length = 32) : (l.drop 12).take 20 = l.drop 12 := by
  apply List.take_of_length_le
  simp [h]

/-- Claim C1: for every 32-byte salt and init-code hash, Create2AddressInto
on the assembled 85-byte input returns bytes 12..31 of the keccak-256 digest
of 0xff, the fixed factory address, the salt and the hash - the specified
derivation; CalculateCreate2Address derives exactly the same 20 address
bytes (checksum-encoded), so the two implementations agree on all inputs;
the result is 20 bytes, and the factory constant decodes to the specified
20-byte value. -/
theorem claim_C1 (salt ich : List Nat) (hs : salt.length = 32) (_hi : ich.length = 32) :
    Create2AddressInto (create2PrefixBytes ++ salt ++ ich) = deriveSpec salt ich ∧
    CalculateCreate2Address ich salt = toChecksumAddress (deriveSpec salt ich) ∧
    (deriveSpec salt ich).length = 20 ∧
    MustAddressBytes FactoryAddress.data = some factoryAddressSpec := by
  have hinput : create2PrefixBytes ++ salt ++ ich =
      0xff :: (factoryAddressSpec ++ salt ++ ich) := by
    rw [create2PrefixBytes_eq]
    simp
  have hderive : Create2AddressInto (create2PrefixBytes ++ salt ++ ich) = deriveSpec salt ich := by
    rw [Create2AddressInto, hinput, deriveSpec]
  refine ⟨hderive, ?_, ?_, by decide⟩
  · rw [CalculateCreate2Address, saltTo32_eq salt hs, hinput, deriveSpec,
      drop12_take20 _ (keccak256_length _)]
  · rw [deriveSpec]
    rw [drop12_take20 _ (keccak256_length _)]
    simp [keccak256_length]

/-- Claim C1 witness: the derivation equalities at the all-zero salt and
all-zero init-code hash. -/
theorem claim_C1_witness :
    Create2AddressInto (create2PrefixBytes ++ List.replicate 32 0 ++ List.replicate 32 0) =
      deriveSpec (List.replicate 32 0) (List.replicate 32 0) ∧
    CalculateCreate2Address (List.replicate 32 0) (List.replicate 32 0) =
      toChecksumAddress (deriveSpec (List.replicate 32 0) (List.replicate 32 0)) ∧
    (deriveSpec (List.replicate 32 0) (List.replicate 32 0)).length = 20 ∧
    MustAddressBytes FactoryAddress.data = some factoryAddressSpec :=
  claim_C1 (List.replicate 32 0) (List.replicate 32 0) (by decide) (by decide)

end Miner

namespace Miner

/-- On hex-nibble chars and byte-bounded hashes, the code's checksum loop
(digit test first, shift-and-mask nibble) agrees with the specification's
reading (alphabetic test, arithmetic nibble). -/
theorem checksumMap_eq_specMap (hash : List Nat) (hhash : ∀ b ∈ hash, b < 256)
    (cs : List Char) (hcs : ∀ c ∈ cs, ∃ n, n < 16 ∧ c = hexNib n) :
    ∀ i, checksumMap hash i cs = checksumSpecMap hash i cs := by
  induction cs with
  | nil => intro i; simp [checksumMap, checksumSpecMap]
  | cons c rest ih =>
    intro i
    obtain ⟨n, hn, hc⟩ := hcs c (by simp)
    have hrest : ∀ c ∈ rest, ∃ n, n < 16 ∧ c = hexNib n := fun c hc => hcs c (by simp [hc])
    simp only [checksumMap, checksumSpecMap, ih hrest (i + 1), List.cons.injEq, and_true]
    subst hc
    have hnib := hashNibble_eq_specNibble hash hhash i
    by_cases hd : n < 10
    · have h1 : '0' ≤ hexNib n ∧ hexNib n ≤ '9' := (hexNib_digit_iff n hn).mpr hd
      have h2 : ¬ ('a' ≤ hexNib n ∧ hexNib n ≤ 'f') := by
        intro hcon
        have := (hexNib_alpha_iff n hn).mp hcon
        omega
      simp [h1, h2]
    · have h1 : ¬ ('0' ≤ hexNib n ∧ hexNib n ≤ '9') := by
        intro hcon
        exact hd ((hexNib_digit_iff n hn).mp hcon)
      have h2 : 'a' ≤ hexNib n ∧ hexNib n ≤ 'f' := (hexNib_alpha_iff n hn).mpr (by omega)
      simp [h1, h2, hnib]

/-- Claim C8: for every 20-byte address, the code's checksum encoding is
exactly the specified EIP-55-style encoding: 0x, then the lowercase hex
digits with each letter uppercased iff the corresponding nibble of the
keccak-256 hash of the lowercase hex string is at least 8, digits unchanged. -/
theorem claim_C8 (a : List Nat) (h20 : a.length = 20) (hb : ∀ x ∈ a, x < 256) :
    toChecksumAddress a = some (checksumEncodeSpec a) := by
  rw [toChecksumAddress, if_neg (by omega)]
  rw [checksumEncodeSpec, checksumChars]
  have hnibs := hexEncodeChars_nibs a hb
  have hhash := keccak256_bytes_lt ((hexEncodeChars a).map Char.toNat)
  rw [checksumMap_eq_specMap _ hhash _ hnibs 0]

/-- Claim C8 witness: the encoding equality at the all-zero address. -/
theorem claim_C8_witness :
    toChecksumAddress (List.replicate 20 0) = some (checksumEncodeSpec (List.replicate 20 0)) :=
  claim_C8 (List.replicate 20 0) (by decide) (by decide)

/-- Claim C9: checksum-encode, lowercase, drop the 0x, hex-decode: back to
the original 20 bytes. -/
theorem claim_C9 (a : List Nat) (h20 : a.length = 20) (hb : ∀ x ∈ a, x < 256) :
    (toChecksumAddress a).bind (fun s => hexDecode ((s.map toLowerChar).drop 2)) = some a := by
  rw [toChecksumAddress, if_neg (by omega)]
  have hnibs := hexEncodeChars_nibs a hb
  rw [Option.some_bind]
  simp only [List.map_cons, List.drop_succ_cons, List.drop_zero]
  rw [checksumChars, toLower_checksumMap _ _ hnibs 0]
  exact hexDecode_hexEncode a hb

/-- Claim C9 witness: the round trip at the all-zero address. -/
theorem claim_C9_witness :
    (toChecksumAddress (List.replicate 20 0)).bind
      (fun s => hexDecode ((s.map toLowerChar).drop 2)) = some (List.replicate 20 0) :=
  claim_C9 (List.replicate 20 0) (by decide) (by decide)

end Miner

namespace Miner

theorem nibblesOf_length (a : List Nat) : (nibblesOf a).length = 2 * a.length := by
  induction a with
  | nil => simp [nibblesOf]
  | cons b rest ih =>
    simp only [nibblesOf] at ih ⊢
    simp only [List.flatMap_cons, List.length_append, List.length_cons, List.length_nil, ih]
    omega

/-- big.Int.SetString base 16 on any string spelling the bytes of a in hex
(any letter case) returns the big-endian value of those bytes. -/
theorem setStringHex_repr (s : List Char) (a : List Nat) (hne : a ≠ [])
    (hrep : s.map hexDigitVal = (nibblesOf a).map some) (ha : ∀ x ∈ a, x < 256) :
    setStringHex s = some (bytesToNat a) := by
  have hlen : s.length = (nibblesOf a).length := by
    have := congrArg List.length hrep
    simpa using this
  cases s with
  | nil =>
    exfalso
    rw [nibblesOf_length] at hlen
    have : a.length = 0 := by simpa using hlen.symm
    exact hne (List.length_eq_zero.mp this)
  | cons c cs =>
    rw [setStringHex]
    simp only [List.isEmpty_cons, if_false, Bool.false_eq_true]
    rw [parseHexAcc_of_digitVals _ (nibblesOf a) hrep 0, nibbles_foldl a ha 0]
    rfl

/-- The comparator on any hex spellings of two byte lists compares their
big-endian values. -/
theorem isBetterOptimized_repr (sa sb : List Char) (a b : List Nat)
    (hanil : a ≠ []) (hbnil : b ≠ [])
    (ha : ∀ x ∈ a, x < 256) (hb : ∀ x ∈ b, x < 256)
    (hsa : (sa.drop 2).map hexDigitVal = (nibblesOf a).map some)
    (hsb : (sb.drop 2).map hexDigitVal = (nibblesOf b).map some) :
    isBetterOptimized sa sb = some (decide (bytesToNat a < bytesToNat b)) := by
  rw [isBetterOptimized, setStringHex_repr _ a hanil hsa ha, setStringHex_repr _ b hbnil hsb hb]

/-- On equal-length byte lists the value order is the lexicographic order. -/
theorem decide_lt_eq_lexLt (a b : List Nat) (hlen : a.length = b.length)
    (ha : ∀ x ∈ a, x < 256) (hb : ∀ x ∈ b, x < 256) :
    decide (bytesToNat a < bytesToNat b) = lexLt a b := by
  have hiff := bytesToNat_lt_iff_lexLt a b hlen ha hb
  rw [Bool.eq_iff_iff]
  simp only [decide_eq_true_eq]
  exact hiff

/-- Claim C3: the acceptance test accepts any candidate when no best exists;
on checksum-style spellings of two 20-byte addresses, isBetterOptimized
decides exactly the strict left-to-right lexicographic byte order, is
irreflexive, and on distinct addresses exactly one direction holds. -/
theorem claim_C3 (a b : List Nat) (sa sb : List Char)
    (ha20 : a.length = 20) (hb20 : b.length = 20)
    (ha : ∀ x ∈ a, x < 256) (hb : ∀ x ∈ b, x < 256)
    (hsa : (sa.drop 2).map hexDigitVal = (nibblesOf a).map some)
    (hsb : (sb.drop 2).map hexDigitVal = (nibblesOf b).map some) :
    (∀ s, acceptsCandidate s none = some true) ∧
    isBetterOptimized sa sb = some (lexLt a b) ∧
    isBetterOptimized sa sa = some false ∧
    (a ≠ b → (isBetterOptimized sa sb = some true ↔ ¬ isBetterOptimized sb sa = some true)) := by
  have hanil : a ≠ [] := by intro h; rw [h] at ha20; simp at ha20
  have hbnil : b ≠ [] := by intro h; rw [h] at hb20; simp at hb20
  have hlen : a.length = b.length := by omega
  have hab := isBetterOptimized_repr sa sb a b hanil hbnil ha hb hsa hsb
  have hba := isBetterOptimized_repr sb sa b a hbnil hanil hb ha hsb hsa
  have haa := isBetterOptimized_repr sa sa a a hanil hanil ha ha hsa hsa
  refine ⟨fun s => rfl, ?_, ?_, ?_⟩
  · rw [hab, decide_lt_eq_lexLt a b hlen ha hb]
  · rw [haa]
    simp
  · intro hne
    rw [hab, hba]
    have hvalne : bytesToNat a ≠ bytesToNat b := by
      intro h
      exact hne (bytesToNat_inj a b hlen ha hb h)
    constructor
    · intro h1 h2
      simp only [Option.some.injEq, decide_eq_true_eq] at h1 h2
      omega
    · intro h1
      simp only [Option.some.injEq, decide_eq_true_eq] at h1 ⊢
      omega

/-- Claim C3 witness: two concrete 20-byte addresses (differing in the last
byte) with lowercase hex spellings. -/
theorem claim_C3_witness :
    acceptsCandidate ('0' :: 'x' :: (List.replicate 39 '0' ++ ['1'])) none = some true ∧
    isBetterOptimized ('0' :: 'x' :: (List.replicate 39 '0' ++ ['1']))
      ('0' :: 'x' :: (List.replicate 39 '0' ++ ['2'])) =
      some (lexLt (List.replicate 19 0 ++ [1]) (List.replicate 19 0 ++ [2])) ∧
    isBetterOptimized ('0' :: 'x' :: (List.replicate 39 '0' ++ ['1']))
      ('0' :: 'x' :: (List.replicate 39 '0' ++ ['1'])) = some false ∧
    (isBetterOptimized ('0' :: 'x' :: (List.replicate 39 '0' ++ ['1']))
        ('0' :: 'x' :: (List.replicate 39 '0' ++ ['2'])) = some true ↔
      ¬ isBetterOptimized ('0' :: 'x' :: (List.replicate 39 '0' ++ ['2']))
        ('0' :: 'x' :: (List.replicate 39 '0' ++ ['1'])) = some true) := by
  have h := claim_C3 (List.replicate 19 0 ++ [1]) (List.replicate 19 0 ++ [2])
    ('0' :: 'x' :: (List.replicate 39 '0' ++ ['1']))
    ('0' :: 'x' :: (List.replicate 39 '0' ++ ['2']))
    (by decide) (by decide) (by decide) (by decide) (by decide) (by decide)
  exact ⟨h.1 _, h.2.1, h.2.2.1, h.2.2.2 (by decide)⟩

end Miner

namespace Miner

/-- Claim C7: in the second miner worker's per-attempt update, a recorded
best result is only ever replaced by a candidate whose 20-byte address is
strictly lexicographically smaller; otherwise the recorded best is kept
unchanged - so the recorded best addresses strictly decrease over a run. -/
theorem claim_C7 (zp : Bool) (rOld : Result) (r : WorkerResultS) (bOld bNew : List Nat)
    (hOld20 : bOld.length = 20) (hNew20 : bNew.length = 20)
    (hOld : ∀ x ∈ bOld, x < 256) (hNew : ∀ x ∈ bNew, x < 256)
    (hsOld : (rOld.address.drop 2).map hexDigitVal = (nibblesOf bOld).map some)
    (hsNew : (r.address.drop 2).map hexDigitVal = (nibblesOf bNew).map some)
    (best' : Option Result) (stopped : Bool)
    (hstep : workerUpdateStep zp (some rOld) r = some (best', stopped)) :
    best' = some rOld ∨ (best' = some (recordOf r) ∧ lexLt bNew bOld = true) := by
  have hanil : bNew ≠ [] := by intro h; rw [h] at hNew20; simp at hNew20
  have hbnil : bOld ≠ [] := by intro h; rw [h] at hOld20; simp at hOld20
  have hlen : bNew.length = bOld.length := by omega
  have hcmp : isBetterOptimized r.address rOld.address = some (lexLt bNew bOld) := by
    rw [isBetterOptimized_repr _ _ bNew bOld hanil hbnil hNew hOld hsNew hsOld,
      decide_lt_eq_lexLt bNew bOld hlen hNew hOld]
  have hself : isBetterOptimized r.address (recordOf r).address = some false := by
    rw [show (recordOf r).address = r.address from rfl,
      isBetterOptimized_repr _ _ bNew bNew hanil hanil hNew hNew hsNew hsNew]
    simp
  cases zp <;> rcases hL : lexLt bNew bOld with _ | _ <;> rcases hM : r.isMatch with _ | _ <;>
    · rw [hL] at hcmp
      simp [workerUpdateStep, hcmp, hM, hself] at hstep
      first
        | exact Or.inl hstep.1.symm
        | exact Or.inl hstep.symm
        | exact Or.inl hstep.1
        | exact Or.inl hstep
        | exact Or.inr ⟨hstep.1.symm, rfl⟩

end Miner

namespace Miner

/-- Sample concrete addresses and records for the update-step witness. -/
def sampleAddrOne : List Char := '0' :: 'x' :: (List.replicate 39 '0' ++ ['1'])

def sampleAddrTwo : List Char := '0' :: 'x' :: (List.replicate 39 '0' ++ ['2'])

def sampleOldBest : Result := { salt := [], address := sampleAddrTwo, attempts := 0 }

def sampleNewRes : WorkerResultS :=
  { salt := [], address := sampleAddrOne, attempts := 0, isMatch := true }

/-- Claim C7 witness: a concrete matching candidate (address ...01) replacing
a concrete recorded best (address ...02) in the update step. -/
theorem claim_C7_witness :
    (some (recordOf sampleNewRes) : Option Result) = some sampleOldBest ∨
    ((some (recordOf sampleNewRes) : Option Result) = some (recordOf sampleNewRes) ∧
      lexLt (List.replicate 19 0 ++ [1]) (List.replicate 19 0 ++ [2]) = true) :=
  claim_C7 false sampleOldBest sampleNewRes
    (List.replicate 19 0 ++ [2]) (List.replicate 19 0 ++ [1])
    (by decide) (by decide) (by decide) (by decide) (by decide) (by decide)
    _ true (by decide)

end Miner

namespace Miner

set_option maxRecDepth 100000 in
/-- The embedded Keccak-256 reproduces the well-known legacy digest of the
empty input (the hash of empty EVM account code). -/
theorem keccak256_empty_vector :
    keccak256 [] =
      [0xc5, 0xd2, 0x46, 0x01, 0x86, 0xf7, 0x23, 0x3c, 0x92, 0x7e, 0x7d, 0xb2,
       0xdc, 0xc7, 0x03, 0xc0, 0xe5, 0x00, 0xb6, 0x53, 0xca, 0x82, 0x27, 0x3b,
       0x7b, 0xfa, 0xd8, 0x04, 0x5d, 0x85, 0xa4, 0x70] := by
  decide

set_option maxRecDepth 100000 in
/-- The embedded Keccak-256 reproduces the well-known legacy digest of the
three bytes "abc". -/
theorem keccak256_abc_vector :
    keccak256 [0x61, 0x62, 0x63] =
      [0x4e, 0x03, 0x65, 0x7a, 0xea, 0x45, 0xa9, 0x4f, 0xc7, 0xd4, 0x7b, 0xa8,
       0x26, 0xc8, 0xd6, 0x67, 0xc0, 0xd1, 0xe6, 0xe3, 0x3a, 0x64, 0xa0, 0x36,
       0xec, 0x44, 0xf5, 0x8f, 0xa1, 0x2d, 0x6c, 0x45] := by
  decide

end Miner
